import Mathlib

/-!
Verification development for the tomographic preprocessing module
(dataio/data.py): the ring-artifact suppression filter (removeRings) and
the entropy-based rotation-center search (optimizeCenter / _costFunc).

The numpy/scipy/pywt primitives that the module consumes are modelled as an
abstract environment (Env) or as faithful shallow embeddings of their
documented behaviour; the module's own control flow, index arithmetic and
formulas are translated directly from the source.  Scalars are taken in an
arbitrary linearly ordered field (rationals for executable witnesses, reals
where the exponential/logarithm is needed), the usual idealised-real model
of the floating-point code.
-/

namespace TomoData

/-- A 2-D array in the numpy style: a shape plus an entry function.
numpy arrays are always rectangular, and in-place writes can never change
the shape, which this representation captures exactly.  Entries outside the
shape are junk and never semantically relevant. -/
structure Mtx (α : Type) where
  rows : ℕ
  cols : ℕ
  entry : ℕ → ℕ → α

/-- The 3-D projection stack of data.py, indexed [projection, slice, pixel]
(shape (d0, d1, d2)), together with the rotation-center attribute that the
read object carries (self.center). -/
structure Stack (K : Type) where
  d0 : ℕ
  d1 : ℕ
  d2 : ℕ
  val : ℕ → ℕ → ℕ → K
  center : K

variable {K : Type} [LinearOrderedField K]

/-- The all-zero r-by-c real matrix. -/
def zeroM (r c : ℕ) : Mtx K := ⟨r, c, fun _ _ => 0⟩

/-- The all-zero r-by-c complex matrix (pairs of real and imaginary part). -/
def zeroCM (r c : ℕ) : Mtx (K × K) := ⟨r, c, fun _ _ => ((0 : K), (0 : K))⟩

/-- numpy slicing M[0:r, 0:c]: clamps the shape, keeps the entries. -/
def cropM (r c : ℕ) (M : Mtx K) : Mtx K := ⟨min M.rows r, min M.cols c, M.entry⟩

/-- The 2-D sinogram self.data[:, m, :] of slice m (a view over axis 1). -/
def getSlice (st : Stack K) (m : ℕ) : Mtx K :=
  ⟨st.d0, st.d2, fun p x => st.val p m x⟩

/-- The in-place write self.data[:, m, :] = M (entries only; numpy cannot
change the shape of an array by slice assignment). -/
def setSlice (st : Stack K) (m : ℕ) (M : Mtx K) : Stack K :=
  { st with val := fun p m' x => if m' = m then M.entry p x else st.val p m' x }

/-- Error taxonomy of the specification: InvalidParameter corresponds to the
ValueError raises in the source, shapeMismatch to the ValueError numpy
raises on a shape-incompatible slice assignment, and decompositionTooDeep
is the failure the specification postulates for over-deep wavelet
decompositions. -/
inductive SpecError where
  | invalidParameter (msg : String)
  | decompositionTooDeep
  | shapeMismatch
deriving DecidableEq

/-- Slice assignment with numpy's shape check: self.data[:, m, :] = M
requires M to have shape (d0, d2). -/
def setSliceChecked (st : Stack K) (m : ℕ) (M : Mtx K) :
    Except SpecError (Stack K) :=
  if M.rows = st.d0 ∧ M.cols = st.d2 then .ok (setSlice st m M)
  else .error .shapeMismatch

/-- The external transform primitives consumed by removeRings, as an
abstract interface: dwt2 and idwt2 model pywt.dwt2 / pywt.idwt2 for the
chosen wavelet, fwd models np.fft.fftshift(np.fft.fft(., axis=0)), bwd
models np.real(np.fft.ifft(np.fft.ifftshift(.), axis=0)), and exp models
np.exp. -/
structure Env (K : Type) where
  dwt2 : Mtx K → Mtx K × (Mtx K × Mtx K × Mtx K)
  idwt2 : Mtx K → Mtx K × Mtx K × Mtx K → Mtx K
  fwd : Mtx K → Mtx (K × K)
  bwd : Mtx (K × K) → Mtx K
  exp : K → K

/-- Element j of (np.arange(-my, my, 2, dtype=float) + 1) / 2, the shifted
frequency coordinate used by removeRings. -/
def yHat (my j : ℕ) : K := (2 * (j : K) - (my : K) + 1) / 2

/-- The damping factor 1 - exp(-(y_hat^2) / (2 sigma^2)) of removeRings at
row j of a height-my sub-band. -/
def dampVal (ex : K → K) (σ : K) (my j : ℕ) : K :=
  1 - ex (-(yHat my j) ^ 2 / (2 * σ ^ 2))

/-- The index where np.fft.fftshift places the zero-frequency component of a
length-n transform (np.fft.fftshift rolls by n // 2, sending index 0 to
n // 2). -/
def zeroFreqIdx (n : ℕ) : ℕ := n / 2

/-- The Fourier damping stage of removeRings on one vertical-detail band:
forward transform, multiply row i by the damping factor for row i (the
transposed tile of the damping profile), inverse transform, real part. -/
def dampMat (env : Env K) (σ : K) (v : Mtx K) : Mtx K :=
  let F := env.fwd v
  env.bwd ⟨F.rows, F.cols, fun i j =>
    (dampVal env.exp σ F.rows i * (F.entry i j).1,
     dampVal env.exp σ F.rows i * (F.entry i j).2)⟩

/-- The decomposition loop of removeRings: level applications of dwt2, each
to the previous approximation band, collecting the detail triples
finest-first (cH[m], cV[m], cD[m] at position m). -/
def decompose (env : Env K) : ℕ → Mtx K → Mtx K × List (Mtx K × Mtx K × Mtx K)
  | 0, im => (im, [])
  | n + 1, im =>
    let r := env.dwt2 im
    let rest := decompose env n r.1
    (rest.1, r.2 :: rest.2)

/-- The reconstruction loop of removeRings: walk the pyramid coarsest-first
(for m in range(level)[::-1]); at each level crop the accumulator to the
shape of cH[m], then apply idwt2 with that level's detail triple. -/
def reconSteps (env : Env K) (im : Mtx K) :
    List (Mtx K × Mtx K × Mtx K) → Mtx K
  | [] => im
  | c :: rest =>
    env.idwt2 (cropM c.1.rows c.1.cols (reconSteps env im rest)) c

/-- One slice through the decompose / damp-cV / reconstruct pipeline of
removeRings (everything between reading im and the final crop). -/
def processSlice (env : Env K) (level : ℕ) (σ : K) (im : Mtx K) : Mtx K :=
  let d := decompose env level im
  reconSteps env d.1 (d.2.map fun c => (c.1, dampMat env σ c.2.1, c.2.2))

/-- The slice index the final write self.data[:, m, :] = nim actually uses.
Python for-loop variables leak: after the reconstruction loop
(for m in range(level)[::-1]) the name m holds 0 whenever level is positive,
so the write goes to slice 0; only for level = 0, where no inner loop runs,
does m still hold the outer slice index. -/
def writeIdx (level j : ℕ) : ℕ := if level = 0 then j else 0

/-- removeRings (data.py lines 323-374): iterate over the slice axis; for
each slice index j of range(d1), decompose, damp the vertical-detail bands,
reconstruct, crop to the original slice shape (d0, d2) and assign the
result back through the (leaked) loop variable. -/
def removeRings (env : Env K) (level : ℕ) (σ : K) (st : Stack K) :
    Except SpecError (Stack K) :=
  (List.range st.d1).foldlM (fun s j =>
    setSliceChecked s (writeIdx level j)
      (cropM s.d0 s.d2 (processSlice env level σ (getSlice s j)))) st

/-- pywt.dwt_max_level: the number of useful decomposition levels,
floor(log2(dataLen / (filterLen - 1))), zero when the data is shorter than
filterLen - 1. -/
def dwtMaxLevel (filtLen dataLen : ℕ) : ℕ :=
  if dataLen < filtLen - 1 then 0 else Nat.log2 (dataLen / (filtLen - 1))

/-- The maximum decomposition level the (d0, d2) slice shape of a stack
supports for a length-filtLen wavelet filter. -/
def stackMaxLevel (filtLen : ℕ) (st : Stack K) : ℕ :=
  min (dwtMaxLevel filtLen st.d0) (dwtMaxLevel filtLen st.d2)

/-- A simple concrete environment used to exercise the removeRings control
flow on explicit inputs: the transforms are identity-like (dwt2 duplicates
the image into every band, idwt2 returns the approximation band), the
frequency transforms embed into and project from the complex plane, and exp
is the constant zero function (making every damping factor 1). -/
def trivEnv : Env K where
  dwt2 := fun m => (m, (m, m, m))
  idwt2 := fun a _ => a
  fwd := fun m => ⟨m.rows, m.cols, fun i j => (m.entry i j, 0)⟩
  bwd := fun c => ⟨c.rows, c.cols, fun i j => (c.entry i j).1⟩
  exp := fun _ => 0

/-- Whether an Except result is a success. -/
def exceptOk {ε α : Type} : Except ε α → Bool
  | .ok _ => true
  | .error _ => false

/-! ## The entropy histogram of _costFunc -/

/-- Bin edge i of np.histogram with bins uniform over [lo, hi]:
lo + i (hi - lo) / bins. -/
def binEdge (lo hi : K) (bins i : ℕ) : K := lo + i * (hi - lo) / bins

/-- Whether np.histogram counts value v in bin i: the half-open interval
[edge i, edge (i+1)), except that the last bin is closed at hi.  Values
outside [lo, hi] fall in no bin (np.histogram ignores them). -/
def inBinB (lo hi : K) (bins i : ℕ) (v : K) : Bool :=
  decide (binEdge lo hi bins i ≤ v) &&
    (if i + 1 = bins then decide (v ≤ hi) else decide (v < binEdge lo hi bins (i + 1)))

/-- The count of bin i of np.histogram(values, bins, range=[lo, hi]). -/
def binCount (values : List K) (lo hi : K) (bins i : ℕ) : ℕ :=
  (values.filter (inBinB lo hi bins i)).length

/-- The full histogram of np.histogram(values, bins, range=[lo, hi]). -/
def histCounts (values : List K) (lo hi : K) (bins : ℕ) : List ℕ :=
  (List.range bins).map (binCount values lo hi bins)

/-- Total number of values counted by the histogram. -/
def histTotal (values : List K) (lo hi : K) (bins : ℕ) : ℕ :=
  (histCounts values lo hi bins).sum

/-- The epsilon 1e-12 added to every normalized bin in _costFunc. -/
def histEps : K := 1 / 10 ^ 12

/-- read._costFunc after the reconstruction and Gaussian smoothing (values
is the list of smoothed pixel values of the reconstructed slice): a 64-bin
histogram over [histMin, histMax], counts divided by the pixel count and
shifted by 1e-12, and the negated dot product with its elementwise log2. -/
noncomputable def costFunc (values : List ℝ) (lo hi : ℝ) : ℝ :=
  -(((histCounts values lo hi 64).map
      (fun c : ℕ => (c : ℝ) / values.length + histEps)).map
      (fun p => p * Real.logb 2 p)).sum

/-! ## The center search (optimizeCenter) -/

/-- A value passed as the inCenter argument: np.isscalar distinguishes
scalars from array-likes. -/
inductive InParam (K : Type) where
  | scalar (c : K)
  | array (xs : List K)

/-- Modelled from the spec: the external Reconstruction Operator,
"reconstruct(stack, sliceIndex, center) -> 2D array; must be deterministic
and pure with respect to inputs other than the explicit center field".
The tomoRecon engine itself is outside this module; recon.run(stack,
sliceNo) reads the stack's data and its mutable center attribute and
stores a reconstructed slice on the recon object. -/
def ReconFn (K : Type) : Type := (ℕ → ℕ → ℕ → K) → ℕ → K → Mtx K

/-- np.min over a matrix (fold of min over all in-shape entries, seeded at
entry (0,0)). -/
def matMin (M : Mtx K) : K :=
  (List.range M.rows).foldl
    (fun a i => (List.range M.cols).foldl (fun b j => min b (M.entry i j)) a)
    (M.entry 0 0)

/-- np.max over a matrix. -/
def matMax (M : Mtx K) : K :=
  (List.range M.rows).foldl
    (fun a i => (List.range M.cols).foldl (fun b j => max b (M.entry i j)) a)
    (M.entry 0 0)

/-- The histMin derivation of optimizeCenter from the probe minimum:
doubled when negative, halved when non-negative. -/
def deriveHistMin (m : K) : K := if m < 0 then 2 * m else m / 2

/-- The histMax derivation of optimizeCenter from the probe maximum:
halved when negative, doubled when non-negative. -/
def deriveHistMax (m : K) : K := if m < 0 then m / 2 else 2 * m

/-- optimizeCenter lines 231-245: one probe reconstruction of slice sliceNo
(recon.run(self, sliceNo=sliceNo), which uses the stack's current center
attribute), then each missing histogram bound is derived from the probe's
extremes; a supplied bound is passed through. -/
def resolveHistBounds (rec : ReconFn K) (st : Stack K) (sliceNo : ℕ)
    (histMin? histMax? : Option K) : K × K :=
  let probe := rec st.val sliceNo st.center
  (histMin?.getD (deriveHistMin (matMin probe)),
   histMax?.getD (deriveHistMax (matMax probe)))

/-- Follows the words of the claim (not the source): the probe
reconstruction is performed at the supplied initial center rather than at
the stack's current center attribute. -/
def resolveHistBoundsSpecInitial (rec : ReconFn K) (st : Stack K)
    (sliceNo : ℕ) (histMin? histMax? : Option K) (inCenter : K) : K × K :=
  let probe := rec st.val sliceNo inCenter
  (histMin?.getD (deriveHistMin (matMin probe)),
   histMax?.getD (deriveHistMax (matMax probe)))

/-- optimizeCenter lines 220-223: sliceNo defaults to numSlices // 2
(Python 2 integer division); a supplied sliceNo is rejected when it
exceeds the number of available slices. -/
def resolveSliceNo (d1 : ℕ) : Option ℕ → Except SpecError ℕ
  | none => .ok (d1 / 2)
  | some s =>
    if s > d1 then
      .error (.invalidParameter "sliceNo is higher than number of available slices.")
    else .ok s

/-- optimizeCenter lines 225-228: inCenter defaults to numPixels // 2
(Python 2 integer division of the pixel count); a non-scalar inCenter is
rejected. -/
def resolveInCenter (d2 : ℕ) : Option (InParam K) → Except SpecError K
  | none => .ok ((d2 / 2 : ℕ) : K)
  | some (.scalar c) => .ok c
  | some (.array _) => .error (.invalidParameter "inCenter must be a scalar.")

/-- The state effect of the Nelder-Mead search: each evaluation of
read._costFunc first assigns reconInput.center = center and then runs the
(pure, modelled from the spec) Reconstruction Operator, which writes only
the recon object's own buffer; so on the stack itself each evaluation
updates exactly the center attribute. -/
def searchFold (cands : List K) (st : Stack K) : Stack K :=
  cands.foldl (fun s c => { s with center := c }) st

/-- optimizeCenter: validate sliceNo, validate inCenter, probe once to
resolve the histogram bounds, then run the Nelder-Mead minimization of
_costFunc seeded at the resolved inCenter.  The optimizer's evaluation
sequence after the seed (evalTail) and its reported result (retx) are
internal to scipy and appear as parameters.  Returns the reported center,
the resolved histogram bounds and the final stack state. -/
def optimizeCenter (rec : ReconFn K) (evalTail : List K) (retx : K)
    (st : Stack K) (sliceNo? : Option ℕ) (inCenter? : Option (InParam K))
    (histMin? histMax? : Option K) :
    Except SpecError (K × K × K × Stack K) := do
  let sliceNo ← resolveSliceNo st.d1 sliceNo?
  let inC ← resolveInCenter st.d2 inCenter?
  let b := resolveHistBounds rec st sliceNo histMin? histMax?
  let st' := searchFold (inC :: evalTail) st
  .ok (retx, b.1, b.2, st')

/-! ## A shallow model of the pywt single-level transforms

pywt.dwt2 / pywt.idwt2 with the default symmetric ('sym') signal extension:
the forward transform extends the signal by half-point reflection,
convolves with the decomposition filters and downsamples by two (output
length floor((n + flen - 1) / 2)); the inverse upsamples, convolves with
the reconstruction filters, sums the two branches and trims to length
2 n - flen + 2.  The 2-D transforms are the separable application along
both axes.  A Daubechies wavelet such as db10 is a quadruple of length-20
filters; the theorems below hypothesise only its defining sum identities.
-/

/-- The sum of a filter's taps. -/
def listSum (f : List K) : K := ∑ k in Finset.range f.length, f.getD k 0

/-- The sum of a filter's even-indexed taps. -/
def evenSum (f : List K) : K :=
  ∑ k in (Finset.range f.length).filter (fun k => k % 2 = 0), f.getD k 0

/-- The sum of a filter's odd-indexed taps. -/
def oddSum (f : List K) : K :=
  ∑ k in (Finset.range f.length).filter (fun k => k % 2 = 1), f.getD k 0

/-- Fold an arbitrary integer position into [0, n) by half-point symmetric
reflection (the 'sym' extension mode of pywt): the extended signal has
period 2 n, running forward then mirrored. -/
def symIdx (n : ℕ) (i : ℤ) : ℕ :=
  if n = 0 then 0
  else
    let m := (i % (2 * n)).toNat
    if m < n then m else 2 * n - 1 - m

/-- Output length of a single-level DWT: floor((n + flen - 1) / 2). -/
def dwtLen (flen n : ℕ) : ℕ := (n + flen - 1) / 2

/-- One filtered-and-downsampled branch of pywt.dwt on a length-n signal x
(given as an entry function read only at indices below n): coefficient j
is the filter dotted with the symmetrically extended signal at offset 2 j.
The exact phase of the convolution does not affect any property proved
here; the output length and the in-range reads are the pywt ones. -/
def dwt1 (f : List K) (n : ℕ) (x : ℕ → K) (j : ℕ) : K :=
  ∑ k in Finset.range f.length,
    f.getD k 0 * x (symIdx n ((2 * j + k : ℤ) - (f.length - 1)))

/-- pywt.dwt2(M, w) = (cA, (cH, cV, cD)): separable single-level transform,
first along axis 1 (each row), then along axis 0 (each column); cH is the
axis-0 detail of the row-approximation plane, cV the axis-0 approximation
of the row-detail plane, cD the double detail. -/
def pywtDwt2 (lo hi : List K) (M : Mtx K) :
    Mtx K × (Mtx K × Mtx K × Mtx K) :=
  let A1 : Mtx K := ⟨M.rows, dwtLen lo.length M.cols,
    fun i j => dwt1 lo M.cols (fun t => M.entry i t) j⟩
  let D1 : Mtx K := ⟨M.rows, dwtLen hi.length M.cols,
    fun i j => dwt1 hi M.cols (fun t => M.entry i t) j⟩
  (⟨dwtLen lo.length M.rows, A1.cols, fun i j => dwt1 lo M.rows (fun t => A1.entry t j) i⟩,
   (⟨dwtLen hi.length M.rows, A1.cols, fun i j => dwt1 hi M.rows (fun t => A1.entry t j) i⟩,
    ⟨dwtLen lo.length M.rows, D1.cols, fun i j => dwt1 lo M.rows (fun t => D1.entry t j) i⟩,
    ⟨dwtLen hi.length M.rows, D1.cols, fun i j => dwt1 hi M.rows (fun t => D1.entry t j) i⟩))

/-- Output length of a single-level inverse DWT: 2 n - flen + 2. -/
def upLen (flen n : ℕ) : ℕ := 2 * n + 2 - flen

/-- One upsample-and-convolve branch of pywt.idwt on length-n coefficients
a: kept output position i corresponds to absolute convolution position
i + flen - 2, receiving every tap at index i + flen - 2 - 2 j (for source
position j) that lies within the filter; the guard 2 + 2 j &le; i + flen
makes the truncated subtraction agree with the integer one. -/
def upconv (f : List K) (n : ℕ) (a : ℕ → K) (i : ℕ) : K :=
  ∑ j in Finset.range n,
    if 2 + 2 * j ≤ i + f.length ∧ i + f.length - 2 - 2 * j < f.length
    then a j * f.getD (i + f.length - 2 - 2 * j) 0 else 0

/-- pywt.idwt2((cA, (cH, cV, cD)), w): the inverse separable transform,
along axis 0 first (combining cA with cH and cV with cD through the
reconstruction filters), then along axis 1. -/
def pywtIdwt2 (rlo rhi : List K) (A H V D : Mtx K) : Mtx K :=
  let U : Mtx K := ⟨upLen rlo.length A.rows, A.cols, fun i j =>
    upconv rlo A.rows (fun t => A.entry t j) i +
      upconv rhi A.rows (fun t => H.entry t j) i⟩
  let W : Mtx K := ⟨upLen rlo.length A.rows, A.cols, fun i j =>
    upconv rlo A.rows (fun t => V.entry t j) i +
      upconv rhi A.rows (fun t => D.entry t j) i⟩
  ⟨U.rows, upLen rlo.length U.cols, fun i j =>
    upconv rlo U.cols (fun t => U.entry i t) j +
      upconv rhi U.cols (fun t => W.entry i t) j⟩

/-- The removeRings environment built from the pywt transform model for a
wavelet with decomposition filters lo, hi and reconstruction filters rlo,
rhi, and from given frequency-transform and exponential primitives. -/
def wletEnv (lo hi rlo rhi : List K) (fwd : Mtx K → Mtx (K × K))
    (bwd : Mtx (K × K) → Mtx K) (ex : K → K) : Env K where
  dwt2 := pywtDwt2 lo hi
  idwt2 := fun a c => pywtIdwt2 rlo rhi a c.1 c.2.1 c.2.2
  fwd := fwd
  bwd := bwd
  exp := ex

/-! ## Concrete test fixtures -/

/-- Extract one entry of the resulting stack of a removeRings run. -/
def stackEntry (r : Except SpecError (Stack ℚ)) (p m x : ℕ) : Option ℚ :=
  match r with
  | .ok s => some (s.val p m x)
  | .error _ => none

/-- A 1-projection, 2-slice, 1-pixel stack whose slice 0 holds 0 and whose
slice 1 holds 1. -/
def c1Stack : Stack ℚ := ⟨1, 2, 1, fun _ m _ => if m = 1 then 1 else 0, 0⟩

/-- A minimal 1-by-1-by-1 stack. -/
def c4Stack : Stack ℚ := ⟨1, 1, 1, fun _ _ _ => 0, 0⟩

/-! ## Helper lemmas about the removeRings fold -/

omit [LinearOrderedField K] in
/-- Writing a slice's own cropped content back to its own index is the
identity on the stack. -/
lemma setSlice_getSlice (s : Stack K) (j : ℕ) :
    setSlice s j (cropM s.d0 s.d2 (getSlice s j)) = s := by
  have hv : (fun p m' x =>
      if m' = j then (cropM s.d0 s.d2 (getSlice s j)).entry p x
      else s.val p m' x) = s.val := by
    funext p m' x
    by_cases h : m' = j
    · subst h; simp [cropM, getSlice]
    · simp [h]
  calc setSlice s j (cropM s.d0 s.d2 (getSlice s j))
      = { s with val := s.val } := congrArg (fun f => { s with val := f }) hv
    _ = s := rfl

/-- At level 0 no inner loop runs: the slice is read, cropped to its own
shape and written back to its own index, so each step is the identity. -/
lemma removeRings_zero_step (env : Env K) (σ : K) (s : Stack K) (j : ℕ) :
    setSliceChecked s (writeIdx 0 j)
      (cropM s.d0 s.d2 (processSlice env 0 σ (getSlice s j))) = .ok s := by
  show setSliceChecked s (writeIdx 0 j) (cropM s.d0 s.d2 (getSlice s j)) = .ok s
  have hcond : (cropM s.d0 s.d2 (getSlice s j)).rows = s.d0 ∧
      (cropM s.d0 s.d2 (getSlice s j)).cols = s.d2 := by
    simp [cropM, getSlice]
  rw [setSliceChecked, if_pos hcond]
  have hidx : writeIdx 0 j = j := rfl
  rw [hidx, setSlice_getSlice]

/-- Binding a successful Except value applies the continuation. -/
lemma except_bind_ok {ε α β : Type} (a : α) (f : α → Except ε β) :
    (Except.ok a >>= f) = f a := rfl

/-- Folding a step that fixes every state yields the initial state. -/
lemma foldlM_ok_fixed {ε σa : Type} (f : σa → ℕ → Except ε σa)
    (hs : ∀ s j, f s j = .ok s) :
    ∀ (l : List ℕ) (s : σa), List.foldlM f s l = .ok s := by
  intro l
  induction l with
  | nil => intro s; rfl
  | cons a t ih =>
    intro s
    rw [List.foldlM_cons, hs s a, except_bind_ok]
    exact ih s

/-- removeRings at level 0 returns the stack unchanged (shared helper). -/
lemma removeRings_zero_aux (env : Env K) (σ : K) (st : Stack K) :
    removeRings env 0 σ st = .ok st :=
  foldlM_ok_fixed _ (removeRings_zero_step env σ) _ st

/-- Every step of the removeRings fold either succeeds with the same shape
fields or fails with the numpy shape error. -/
lemma removeRings_step_cases (env : Env K) (level : ℕ) (σ : K)
    (s : Stack K) (j : ℕ) :
    (∃ s', setSliceChecked s (writeIdx level j)
        (cropM s.d0 s.d2 (processSlice env level σ (getSlice s j))) = .ok s' ∧
        s'.d0 = s.d0 ∧ s'.d1 = s.d1 ∧ s'.d2 = s.d2) ∨
      setSliceChecked s (writeIdx level j)
        (cropM s.d0 s.d2 (processSlice env level σ (getSlice s j))) =
        .error .shapeMismatch := by
  rw [setSliceChecked]
  split
  · exact Or.inl ⟨_, rfl, rfl, rfl, rfl⟩
  · exact Or.inr rfl

/-- The removeRings fold: if it succeeds the shape fields are preserved,
and the only error it can produce is the shape error. -/
lemma removeRings_fold_cases (env : Env K) (level : ℕ) (σ : K) :
    ∀ (l : List ℕ) (s : Stack K),
      (∃ s', (List.foldlM (fun s j =>
          setSliceChecked s (writeIdx level j)
            (cropM s.d0 s.d2 (processSlice env level σ (getSlice s j)))) s l) =
          .ok s' ∧ s'.d0 = s.d0 ∧ s'.d1 = s.d1 ∧ s'.d2 = s.d2) ∨
        (List.foldlM (fun s j =>
          setSliceChecked s (writeIdx level j)
            (cropM s.d0 s.d2 (processSlice env level σ (getSlice s j)))) s l) =
          .error .shapeMismatch := by
  intro l
  induction l with
  | nil => intro s; exact Or.inl ⟨s, rfl, rfl, rfl, rfl⟩
  | cons a t ih =>
    intro s
    rw [List.foldlM_cons]
    rcases removeRings_step_cases env level σ s a with ⟨s₁, h1, hd0, hd1, hd2⟩ | herr
    · rw [h1, except_bind_ok]
      rcases ih s₁ with ⟨s₂, h2, g0, g1, g2⟩ | h2
      · exact Or.inl ⟨s₂, h2, by rw [g0, hd0], by rw [g1, hd1], by rw [g2, hd2]⟩
      · exact Or.inr h2
    · rw [herr]
      exact Or.inr rfl

/-! ## Claim C10 -/

/-- C10: for every stack (and every environment of transform primitives and
every sigma), removeRings called with level 0 is the identity: no
decomposition or damping occurs and every slice of the stack is left
unchanged, so the call returns the stack itself. -/
theorem removeRings_level_zero_identity (env : Env K) (σ : K) (st : Stack K) :
    removeRings env 0 σ st = .ok st :=
  removeRings_zero_aux env σ st

/-! ## Claim C1 -/

/-- C1: evaluation of removeRings at a failing input for the write-back
claim.  The stack c1Stack has slice 0 equal to 0 and slice 1 equal to 1;
the environment trivEnv makes the per-slice processing the identity, so by
the claim the whole call should leave the stack unchanged (each slice's
processed result written back to its own index, other slices untouched).
Instead the leaked loop variable directs every write to slice 0: both
slices of the result hold 1, i.e. processing slice 1 overwrote slice 0. -/
theorem removeRings_writeback_misdirected :
    stackEntry (removeRings trivEnv 1 2 c1Stack) 0 0 0 = some 1 ∧
    stackEntry (removeRings trivEnv 1 2 c1Stack) 0 1 0 = some 1 ∧
    c1Stack.val 0 0 0 = 0 := by decide

/-! ## Claim C4 -/

/-- C4 counterexample: a 1-by-1-by-1 stack supports zero decomposition
levels for a length-20 (db10) filter, yet removeRings at level 1 completes
successfully instead of failing with DecompositionTooDeep. -/
theorem removeRings_deep_level_succeeds :
    stackMaxLevel 20 c4Stack = 0 ∧
    exceptOk (removeRings (trivEnv (K := ℚ)) 1 2 c4Stack) = true := by decide

/-- C4 amended: removeRings never raises a DecompositionTooDeep error, for
any level (in particular for levels exceeding the supported maximum): the
per-level transform primitives accept any input size, the source contains
no level check, and every run either succeeds or fails with the numpy
shape error on the final slice assignment. -/
theorem removeRings_no_decomposition_error (env : Env K) (level : ℕ)
    (σ : K) (st : Stack K) :
    (∃ st', removeRings env level σ st = .ok st') ∨
      removeRings env level σ st = .error .shapeMismatch := by
  rcases removeRings_fold_cases env level σ (List.range st.d1) st with
    ⟨s', h, _⟩ | h
  · exact Or.inl ⟨s', h⟩
  · exact Or.inr h

/-! ## Claim C6 -/

/-- C6: for every input stack and every valid level not exceeding the
maximum supported by the slice dimensions (for the default length-20 db10
filter), a successful removeRings call leaves the stack shape unchanged:
the slice writes are in-place and shape-checked, so the three extents are
preserved. -/
theorem removeRings_shape_invariant (env : Env K) (level : ℕ) (σ : K)
    (st st' : Stack K) (_hlev : level ≤ stackMaxLevel 20 st)
    (hok : removeRings env level σ st = .ok st') :
    st'.d0 = st.d0 ∧ st'.d1 = st.d1 ∧ st'.d2 = st.d2 := by
  rcases removeRings_fold_cases env level σ (List.range st.d1) st with
    ⟨s', h, h0, h1, h2⟩ | h
  · rw [removeRings] at hok
    rw [hok] at h
    cases Except.ok.inj h
    exact ⟨h0, h1, h2⟩
  · rw [removeRings] at hok
    rw [hok] at h
    exact Except.noConfusion h

/-- C6 witness: at level 0 (the maximum supported by a 1-by-1-by-1 stack)
removeRings succeeds and the shape is preserved. -/
theorem removeRings_shape_invariant_witness :
    0 ≤ stackMaxLevel 20 c4Stack ∧
    removeRings (trivEnv (K := ℚ)) 0 2 c4Stack = .ok c4Stack ∧
    (c4Stack.d0 = c4Stack.d0 ∧ c4Stack.d1 = c4Stack.d1 ∧
      c4Stack.d2 = c4Stack.d2) :=
  ⟨Nat.zero_le _, removeRings_zero_aux _ _ _,
    removeRings_shape_invariant (trivEnv (K := ℚ)) 0 2 c4Stack c4Stack
      (Nat.zero_le _) (removeRings_zero_aux _ _ _)⟩

/-! ## Helper lemmas about the center search -/

/-- Binding a failed Except value propagates the error. -/
lemma except_bind_error {ε α β : Type} (e : ε) (f : α → Except ε β) :
    ((Except.error e : Except ε α) >>= f) = Except.error e := rfl

omit [LinearOrderedField K] in
/-- The search fold touches no field but the center. -/
lemma searchFold_fields (cands : List K) :
    ∀ st : Stack K, (searchFold cands st).val = st.val ∧
      (searchFold cands st).d0 = st.d0 ∧ (searchFold cands st).d1 = st.d1 ∧
      (searchFold cands st).d2 = st.d2 := by
  induction cands with
  | nil => intro st; exact ⟨rfl, rfl, rfl, rfl⟩
  | cons c t ih =>
    intro st
    exact ih { st with center := c }

omit [LinearOrderedField K] in
/-- After the search fold the center attribute holds the last candidate. -/
lemma searchFold_center (cands : List K) (h : cands ≠ []) :
    ∀ st : Stack K, (searchFold cands st).center = cands.getLast h := by
  induction cands with
  | nil => exact absurd rfl h
  | cons c t ih =>
    intro st
    cases t with
    | nil => rfl
    | cons c₂ t₂ =>
      rw [List.getLast_cons (by simp)]
      exact ih (by simp) { st with center := c }

/-- A degenerate reconstruction operator producing an empty image. -/
def constRecon : ReconFn ℚ := fun _ _ _ => ⟨0, 0, fun _ _ => 0⟩

/-- A reconstruction operator whose single pixel echoes the center it was
invoked with, making the probe's center observable. -/
def probeRecon : ReconFn ℚ := fun _ _ c => ⟨1, 1, fun _ _ => c⟩

/-- A 1-projection, 3-slice, 5-pixel stack of zeros with center 0. -/
def c7Stack : Stack ℚ := ⟨1, 3, 5, fun _ _ _ => 0, 0⟩

/-! ## Claim C7 -/

/-- C7: optimizeCenter defaults sliceNo to the middle slice (integer
division of the slice-axis extent by two) and the initial center to half
the pixel-axis extent (integer division, as in the Python 2 source); it
fails with an InvalidParameter error when a supplied sliceNo exceeds the
slice count and when a supplied initial center is non-scalar, in each case
uniformly in the reconstruction operator, i.e. before any reconstruction
work is attempted. -/
theorem optimizeCenter_validation (rec : ReconFn K) (evalTail : List K)
    (retx : K) (st : Stack K) (sliceNo? : Option ℕ)
    (inCenter? : Option (InParam K)) (hMin? hMax? : Option K) :
    (optimizeCenter rec evalTail retx st none inCenter? hMin? hMax? =
      optimizeCenter rec evalTail retx st (some (st.d1 / 2)) inCenter?
        hMin? hMax?) ∧
    (optimizeCenter rec evalTail retx st sliceNo? none hMin? hMax? =
      optimizeCenter rec evalTail retx st sliceNo?
        (some (.scalar ((st.d2 / 2 : ℕ) : K))) hMin? hMax?) ∧
    (∀ s : ℕ, s > st.d1 →
      optimizeCenter rec evalTail retx st (some s) inCenter? hMin? hMax? =
        .error (.invalidParameter
          "sliceNo is higher than number of available slices.")) ∧
    (∀ xs : List K,
      optimizeCenter rec evalTail retx st none (some (.array xs))
        hMin? hMax? =
        .error (.invalidParameter "inCenter must be a scalar.")) := by
  refine ⟨?_, rfl, ?_, fun xs => rfl⟩
  · unfold optimizeCenter
    have h : resolveSliceNo st.d1 (some (st.d1 / 2)) = .ok (st.d1 / 2) := by
      rw [resolveSliceNo, if_neg (Nat.not_lt.mpr (Nat.div_le_self _ _))]
    rw [h]
    rfl
  · intro s hs
    unfold optimizeCenter
    have h : resolveSliceNo st.d1 (some s) =
        .error (.invalidParameter
          "sliceNo is higher than number of available slices.") := by
      rw [resolveSliceNo, if_pos hs]
    rw [h, except_bind_error]

/-- C7 witness: on a 1-by-3-by-5 stack the defaults are slice 1 and center
2, an out-of-range sliceNo 4 and an array inCenter fail fast. -/
theorem optimizeCenter_validation_witness :
    (optimizeCenter constRecon [] 0 c7Stack none none none none =
      optimizeCenter constRecon [] 0 c7Stack (some 1) none none none) ∧
    ((4 : ℕ) > c7Stack.d1 ∧
      optimizeCenter constRecon [] 0 c7Stack (some 4) none none none =
        .error (.invalidParameter
          "sliceNo is higher than number of available slices.")) ∧
    optimizeCenter constRecon [] 0 c7Stack none (some (.array [1, 2]))
        none none =
      .error (.invalidParameter "inCenter must be a scalar.") := by
  have h := optimizeCenter_validation constRecon [] 0 c7Stack none none
    none none
  exact ⟨h.1, ⟨by decide, h.2.2.1 4 (by decide)⟩, h.2.2.2 [1, 2]⟩

/-! ## Claim C9 -/

/-- C9: a successful optimizeCenter run never modifies the stack's
projection data (nor its shape): the only field it mutates is the center
attribute, which each cost-function evaluation sets to the candidate being
evaluated, so the final stack's center holds the last candidate the
optimizer evaluated (the last element of the evaluation sequence seeded at
the resolved initial center), not necessarily the returned center. -/
theorem optimizeCenter_mutates_only_center (rec : ReconFn K)
    (evalTail : List K) (retx : K) (st : Stack K) (sliceNo? : Option ℕ)
    (inCenter? : Option (InParam K)) (hMin? hMax? : Option K)
    (r a b : K) (st' : Stack K)
    (hok : optimizeCenter rec evalTail retx st sliceNo? inCenter? hMin?
      hMax? = .ok (r, a, b, st')) :
    st'.val = st.val ∧ st'.d0 = st.d0 ∧ st'.d1 = st.d1 ∧ st'.d2 = st.d2 ∧
    ∃ inC, resolveInCenter st.d2 inCenter? = .ok inC ∧
      st'.center = (inC :: evalTail).getLast (List.cons_ne_nil _ _) := by
  unfold optimizeCenter at hok
  cases hs : resolveSliceNo st.d1 sliceNo? with
  | error e => rw [hs, except_bind_error] at hok; exact Except.noConfusion hok
  | ok sliceNo =>
    rw [hs, except_bind_ok] at hok
    cases hc : resolveInCenter (K := K) st.d2 inCenter? with
    | error e =>
      rw [hc, except_bind_error] at hok; exact Except.noConfusion hok
    | ok inC =>
      rw [hc, except_bind_ok] at hok
      simp only [Except.ok.injEq, Prod.mk.injEq] at hok
      obtain ⟨-, -, -, h4⟩ := hok
      obtain ⟨hv, h0, h1, h2⟩ := searchFold_fields (inC :: evalTail) st
      rw [← h4]
      exact ⟨hv, h0, h1, h2, inC, rfl,
        searchFold_center (inC :: evalTail) (List.cons_ne_nil _ _) st⟩

/-- C9 witness: a concrete run whose evaluation sequence ends at 5 leaves
the data intact and the center attribute at 5. -/
theorem optimizeCenter_mutates_only_center_witness :
    ({ c7Stack with center := 5 } : Stack ℚ).val = c7Stack.val ∧
    ({ c7Stack with center := 5 } : Stack ℚ).d0 = c7Stack.d0 ∧
    ({ c7Stack with center := 5 } : Stack ℚ).d1 = c7Stack.d1 ∧
    ({ c7Stack with center := 5 } : Stack ℚ).d2 = c7Stack.d2 ∧
    ∃ inC, resolveInCenter c7Stack.d2 none = .ok inC ∧
      ({ c7Stack with center := 5 } : Stack ℚ).center =
        (inC :: [5]).getLast (List.cons_ne_nil _ _) :=
  optimizeCenter_mutates_only_center constRecon [5] 7 c7Stack none none
    (some 0) (some 1) 7 0 1 { c7Stack with center := 5 } rfl

/-! ## Claim C3 -/

/-- C3 counterexample: the probe reconstruction runs at the stack's current
center attribute, not at the supplied initial center.  With a
reconstruction operator that echoes its center argument, a stack whose
center attribute is 0 and an initial center 1, the derived histMin is 0
(from the probe at center 0), not one half (which a probe at the initial
center 1 would give). -/
theorem resolveHistBounds_not_at_initial_center :
    (resolveHistBounds probeRecon c4Stack 0 none none).1 = 0 ∧
      (resolveHistBoundsSpecInitial probeRecon c4Stack 0 none none 1).1 =
        1 / 2 := by
  norm_num [resolveHistBounds, resolveHistBoundsSpecInitial, probeRecon,
    c4Stack, matMin, deriveHistMin, List.range_succ]

/-- C3 amended: when histMin (resp. histMax) is not supplied,
optimizeCenter derives it from the extremes of the single probe
reconstruction performed at the stack's current center attribute (which
equals the default initial center when none is supplied): histMin is twice
the probe minimum when that minimum is negative and half of it otherwise;
histMax is half the probe maximum when that maximum is negative and twice
it otherwise; supplied bounds are passed through unchanged. -/
theorem resolveHistBounds_derivation (rec : ReconFn K) (st : Stack K)
    (sliceNo : ℕ) (hMin? hMax? : Option K) :
    ((resolveHistBounds rec st sliceNo none hMax?).1 =
      (if matMin (rec st.val sliceNo st.center) < 0
       then 2 * matMin (rec st.val sliceNo st.center)
       else matMin (rec st.val sliceNo st.center) / 2)) ∧
    ((resolveHistBounds rec st sliceNo hMin? none).2 =
      (if matMax (rec st.val sliceNo st.center) < 0
       then matMax (rec st.val sliceNo st.center) / 2
       else 2 * matMax (rec st.val sliceNo st.center))) ∧
    (∀ v : K, (resolveHistBounds rec st sliceNo (some v) hMax?).1 = v) ∧
    (∀ v : K, (resolveHistBounds rec st sliceNo hMin? (some v)).2 = v) :=
  ⟨rfl, rfl, fun _ => rfl, fun _ => rfl⟩

/-! ## Claim C5 -/

/-- C5 counterexample: for an even sub-band height the damping factor at
the zero-spatial-frequency position of the shifted spectrum is strictly
positive (here height 4 and sigma 2: the shifted coordinate at index 2 is
one half, not zero), so it does not equal 0 as claimed. -/
theorem dampVal_positive_at_even_center :
    0 < dampVal Real.exp 2 4 (zeroFreqIdx 4) := by
  have harg : -(yHat (K := ℝ) 4 (zeroFreqIdx 4)) ^ 2 / (2 * (2 : ℝ) ^ 2) < 0 := by
    norm_num [yHat, zeroFreqIdx]
  have h : Real.exp (-(yHat (K := ℝ) 4 (zeroFreqIdx 4)) ^ 2 / (2 * (2 : ℝ) ^ 2)) <
      Real.exp 0 := Real.exp_lt_exp.mpr harg
  rw [Real.exp_zero] at h
  unfold dampVal
  linarith

/-- C5 amended: for sigma positive, the damping profile of removeRings is 0
at the shifted zero-frequency index exactly when the sub-band height is
odd; for a positive even height the shifted coordinate there is one half
and the factor is 1 - exp(-1/(8 sigma^2)), strictly positive; the factor
is strictly monotone in the magnitude of the frequency coordinate, always
below 1, and comes arbitrarily close to 1 as the magnitude grows. -/
theorem dampVal_profile (σ : ℝ) (hσ : 0 < σ) (my j k : ℕ) :
    (Odd my → dampVal Real.exp σ my (zeroFreqIdx my) = 0) ∧
    (Even my → 0 < my →
      dampVal Real.exp σ my (zeroFreqIdx my) =
        1 - Real.exp (-1 / (8 * σ ^ 2)) ∧
      0 < dampVal Real.exp σ my (zeroFreqIdx my)) ∧
    (|yHat (K := ℝ) my j| < |yHat (K := ℝ) my k| →
      dampVal Real.exp σ my j < dampVal Real.exp σ my k) ∧
    dampVal Real.exp σ my j < 1 ∧
    (∀ ε : ℝ, 0 < ε → ∃ B : ℝ, ∀ my' j' : ℕ,
      B ≤ |yHat (K := ℝ) my' j'| → 1 - ε < dampVal Real.exp σ my' j') := by
  have hσ2 : 0 < 2 * σ ^ 2 := by positivity
  refine ⟨?_, ?_, ?_, ?_, ?_⟩
  · rintro ⟨t, ht⟩
    have hdiv : my / 2 = t := by omega
    have hy : yHat (K := ℝ) my (zeroFreqIdx my) = 0 := by
      rw [yHat, zeroFreqIdx, hdiv, ht]
      push_cast
      ring
    rw [dampVal, hy]
    norm_num
  · rintro ⟨t, ht⟩ hpos
    have hdiv : my / 2 = t := by omega
    have hy : yHat (K := ℝ) my (zeroFreqIdx my) = 1 / 2 := by
      rw [yHat, zeroFreqIdx, hdiv, ht]
      push_cast
      ring
    have harg : -(yHat (K := ℝ) my (zeroFreqIdx my)) ^ 2 / (2 * σ ^ 2) =
        -1 / (8 * σ ^ 2) := by
      rw [hy]
      field_simp
      ring
    constructor
    · rw [dampVal, harg]
    · have hneg : -1 / (8 * σ ^ 2) < 0 :=
        div_neg_of_neg_of_pos (by norm_num) (by positivity)
      have h := Real.exp_lt_exp.mpr hneg
      rw [Real.exp_zero] at h
      rw [dampVal, harg]
      linarith
  · intro habs
    have hsq : yHat (K := ℝ) my j ^ 2 < yHat (K := ℝ) my k ^ 2 := by
      have h2 := pow_lt_pow_left habs (abs_nonneg _) (by norm_num : (2 : ℕ) ≠ 0)
      rwa [sq_abs, sq_abs] at h2
    have hdiv : yHat (K := ℝ) my j ^ 2 / (2 * σ ^ 2) <
        yHat (K := ℝ) my k ^ 2 / (2 * σ ^ 2) :=
      (div_lt_div_right hσ2).mpr hsq
    have hexp : Real.exp (-(yHat (K := ℝ) my k) ^ 2 / (2 * σ ^ 2)) <
        Real.exp (-(yHat (K := ℝ) my j) ^ 2 / (2 * σ ^ 2)) := by
      apply Real.exp_lt_exp.mpr
      rw [neg_div, neg_div]
      exact neg_lt_neg hdiv
    rw [dampVal, dampVal]
    linarith
  · rw [dampVal]
    linarith [Real.exp_pos (-(yHat (K := ℝ) my j) ^ 2 / (2 * σ ^ 2))]
  · intro ε hε
    refine ⟨Real.sqrt (2 * σ ^ 2 * (1 / ε + 1)), fun my' j' hB => ?_⟩
    set y := yHat (K := ℝ) my' j' with hy
    have hBnn : (0 : ℝ) ≤ Real.sqrt (2 * σ ^ 2 * (1 / ε + 1)) :=
      Real.sqrt_nonneg _
    have hysq : 2 * σ ^ 2 * (1 / ε + 1) ≤ y ^ 2 := by
      have h1 : Real.sqrt (2 * σ ^ 2 * (1 / ε + 1)) ^ 2 ≤ |y| ^ 2 :=
        pow_le_pow_left hBnn hB 2
      rw [Real.sq_sqrt (by positivity), sq_abs] at h1
      exact h1
    have ht : 1 / ε + 1 ≤ y ^ 2 / (2 * σ ^ 2) :=
      (le_div_iff hσ2).mpr (by linarith [mul_comm (2 * σ ^ 2) (1 / ε + 1)])
    have hexp : 1 / ε < Real.exp (y ^ 2 / (2 * σ ^ 2)) := by
      have h2 := Real.add_one_le_exp (y ^ 2 / (2 * σ ^ 2))
      linarith
    have hlt : Real.exp (-(y ^ 2) / (2 * σ ^ 2)) < ε := by
      rw [neg_div, Real.exp_neg]
      calc (Real.exp (y ^ 2 / (2 * σ ^ 2)))⁻¹
          < (1 / ε)⁻¹ := by
            apply inv_lt_inv_of_lt (by positivity) hexp
        _ = ε := by rw [one_div, inv_inv]
    rw [dampVal]
    have harg : -y ^ 2 = -(y ^ 2) := by ring
    rw [harg]
    linarith

/-- C5 witness: for sigma 2 and the odd sub-band height 5 the damping
factor vanishes at the shifted zero-frequency index 2, and it is strictly
larger at index 0, whose frequency coordinate has magnitude 2. -/
theorem dampVal_profile_witness :
    (0 : ℝ) < 2 ∧ Odd 5 ∧
    dampVal Real.exp 2 5 (zeroFreqIdx 5) = 0 ∧
    (|yHat (K := ℝ) 5 2| < |yHat (K := ℝ) 5 0| ∧
      dampVal Real.exp 2 5 2 < dampVal Real.exp 2 5 0) := by
  have h := dampVal_profile 2 (by norm_num) 5 2 0
  have habs : |yHat (K := ℝ) 5 2| < |yHat (K := ℝ) 5 0| := by
    rw [yHat, yHat]
    norm_num
  exact ⟨by norm_num, ⟨2, by norm_num⟩, h.1 ⟨2, by norm_num⟩,
    habs, h.2.2.1 habs⟩

/-! ## Helper lemmas about the histogram -/

/-- Summing a function over List.range agrees with the Finset.range sum. -/
lemma list_range_map_sum {M : Type} [AddCommMonoid M] (f : ℕ → M) (n : ℕ) :
    ((List.range n).map f).sum = ∑ i in Finset.range n, f i := by
  induction n with
  | zero => simp
  | succ m ih =>
    rw [List.range_succ, List.map_append, List.sum_append,
      Finset.sum_range_succ, ih]
    simp

/-- Membership in a histogram bin, propositionally. -/
lemma inBinB_iff (lo hi : K) (bins i : ℕ) (v : K) :
    inBinB lo hi bins i v = true ↔
      (binEdge lo hi bins i ≤ v ∧
        if i + 1 = bins then v ≤ hi else v < binEdge lo hi bins (i + 1)) := by
  by_cases hc : i + 1 = bins <;> simp [inBinB, hc]

/-- Bin edges are monotone when the range is ordered. -/
lemma binEdge_mono (lo hi : K) (bins : ℕ) (h : lo ≤ hi) {i j : ℕ}
    (hij : i ≤ j) : binEdge lo hi bins i ≤ binEdge lo hi bins j := by
  rw [binEdge, binEdge]
  have hnum : (i : K) * (hi - lo) ≤ (j : K) * (hi - lo) :=
    mul_le_mul_of_nonneg_right (by exact_mod_cast hij) (by linarith)
  rcases Nat.eq_zero_or_pos bins with hb0 | hbpos
  · subst hb0
    simp
  · have hbK : (0 : K) < (bins : K) := by exact_mod_cast hbpos
    have hq := (div_le_div_right hbK).mpr hnum
    linarith

/-- Every bin edge lies at or above lo. -/
lemma lo_le_binEdge (lo hi : K) (bins i : ℕ) (h : lo ≤ hi) :
    lo ≤ binEdge lo hi bins i := by
  have h0 : binEdge lo hi bins 0 = lo := by simp [binEdge]
  nth_rewrite 1 [← h0]
  exact binEdge_mono lo hi bins h (Nat.zero_le i)

/-- The last bin edge is hi. -/
lemma binEdge_last (lo hi : K) (bins : ℕ) (hbins : 0 < bins) :
    binEdge lo hi bins bins = hi := by
  have hb : (bins : K) ≠ 0 := Nat.cast_ne_zero.mpr hbins.ne'
  rw [binEdge]
  field_simp

/-- The first bin-edge inequality, rephrased on the normalized coordinate
(v - lo) * bins / (hi - lo). -/
lemma edge_le_iff (lo hi : K) (bins : ℕ) (v : K) (hlt : lo < hi)
    (hbins : 0 < bins) (i : ℕ) :
    binEdge lo hi bins i ≤ v ↔ (i : K) ≤ (v - lo) * bins / (hi - lo) := by
  have hd : (0 : K) < hi - lo := by linarith
  have hb : (0 : K) < (bins : K) := by exact_mod_cast hbins
  rw [binEdge, le_div_iff hd]
  constructor
  · intro hx
    have h1 : (i : K) * (hi - lo) / bins ≤ v - lo := by linarith
    have h2 := (div_le_iff hb).mp h1
    linarith
  · intro hx
    have h1 : (i : K) * (hi - lo) / bins ≤ v - lo := by
      rw [div_le_iff hb]
      linarith
    linarith

/-- The second bin-edge inequality on the normalized coordinate. -/
lemma lt_edge_iff (lo hi : K) (bins : ℕ) (v : K) (hlt : lo < hi)
    (hbins : 0 < bins) (j : ℕ) :
    v < binEdge lo hi bins j ↔ (v - lo) * bins / (hi - lo) < (j : K) := by
  have hd : (0 : K) < hi - lo := by linarith
  have hb : (0 : K) < (bins : K) := by exact_mod_cast hbins
  rw [binEdge, div_lt_iff hd]
  constructor
  · intro hx
    have h1 : v - lo < (j : K) * (hi - lo) / bins := by linarith
    exact (lt_div_iff hb).mp h1
  · intro hx
    have h1 : v - lo < (j : K) * (hi - lo) / bins := by
      rw [lt_div_iff hb]
      linarith
    linarith

/-- Every in-range value lands in some bin. -/
lemma exists_bin [FloorRing K] (lo hi : K) (bins : ℕ) (v : K) (h : lo ≤ hi)
    (hbins : 0 < bins) (hv1 : lo ≤ v) (hv2 : v ≤ hi) :
    ∃ i, i < bins ∧ inBinB lo hi bins i v = true := by
  rcases eq_or_lt_of_le h with heq | hlt
  · refine ⟨bins - 1, by omega, ?_⟩
    rw [inBinB_iff, if_pos (by omega : bins - 1 + 1 = bins)]
    refine ⟨?_, hv2⟩
    rw [binEdge, ← heq]
    simpa using hv1
  · set s := (v - lo) * bins / (hi - lo) with hs
    have hs0 : 0 ≤ s :=
      div_nonneg (mul_nonneg (by linarith) (Nat.cast_nonneg _)) (by linarith)
    have hfl0 : 0 ≤ ⌊s⌋ := Int.floor_nonneg.mpr hs0
    have hcast : ((⌊s⌋.toNat : ℕ) : K) = ((⌊s⌋ : ℤ) : K) := by
      rw [← Int.toNat_of_nonneg hfl0]
      push_cast
      rfl
    by_cases hcase : ⌊s⌋.toNat < bins - 1
    · refine ⟨⌊s⌋.toNat, by omega, ?_⟩
      rw [inBinB_iff, if_neg (by omega : ¬(⌊s⌋.toNat + 1 = bins))]
      constructor
      · rw [edge_le_iff lo hi bins v hlt hbins, ← hs, hcast]
        exact Int.floor_le s
      · rw [lt_edge_iff lo hi bins v hlt hbins, ← hs]
        have h2 := Int.lt_floor_add_one s
        push_cast
        rw [hcast]
        push_cast
        exact_mod_cast h2
    · refine ⟨bins - 1, by omega, ?_⟩
      rw [inBinB_iff, if_pos (by omega : bins - 1 + 1 = bins)]
      refine ⟨?_, hv2⟩
      rw [edge_le_iff lo hi bins v hlt hbins, ← hs]
      have h1 : ((bins - 1 : ℕ) : K) ≤ ((⌊s⌋.toNat : ℕ) : K) :=
        Nat.cast_le.mpr (Nat.le_of_not_lt hcase)
      have h2 : ((⌊s⌋.toNat : ℕ) : K) ≤ s := by
        rw [hcast]
        exact Int.floor_le s
      linarith

/-- Distinct bins are disjoint. -/
lemma bin_disjoint (lo hi : K) (bins : ℕ) (v : K) (h : lo ≤ hi) {i j : ℕ}
    (hjb : j < bins) (hij : i < j)
    (hi1 : inBinB lo hi bins i v = true)
    (hj1 : inBinB lo hi bins j v = true) : False := by
  rw [inBinB_iff] at hi1 hj1
  have hiu : v < binEdge lo hi bins (i + 1) := by
    rcases hi1 with ⟨-, hcond⟩
    by_cases hc : i + 1 = bins
    · omega
    · rwa [if_neg hc] at hcond
  have hjl : binEdge lo hi bins j ≤ v := hj1.1
  have hmono : binEdge lo hi bins (i + 1) ≤ binEdge lo hi bins j :=
    binEdge_mono lo hi bins h (by omega)
  linarith

/-- The bin-indicator sum over all bins counts an in-range value once and
an out-of-range value not at all. -/
lemma sum_bin_indicator [FloorRing K] (lo hi : K) (bins : ℕ) (v : K)
    (h : lo ≤ hi) (hbins : 0 < bins) :
    (∑ i in Finset.range bins,
        if inBinB lo hi bins i v = true then (1 : ℕ) else 0) =
      (if lo ≤ v ∧ v ≤ hi then 1 else 0) := by
  by_cases hv : lo ≤ v ∧ v ≤ hi
  · rw [if_pos hv, Finset.sum_boole]
    obtain ⟨i0, hi0b, hi0⟩ := exists_bin lo hi bins v h hbins hv.1 hv.2
    have hset : (Finset.range bins).filter
        (fun i => inBinB lo hi bins i v = true) = {i0} := by
      ext j
      simp only [Finset.mem_filter, Finset.mem_range, Finset.mem_singleton]
      constructor
      · rintro ⟨hjb, hj⟩
        rcases Nat.lt_trichotomy j i0 with hlt | heq | hgt
        · exact (bin_disjoint lo hi bins v h hi0b hlt hj hi0).elim
        · exact heq
        · exact (bin_disjoint lo hi bins v h hjb hgt hi0 hj).elim
      · rintro rfl
        exact ⟨hi0b, hi0⟩
    rw [hset]
    rfl
  · rw [if_neg hv]
    apply Finset.sum_eq_zero
    intro i hib
    rw [Finset.mem_range] at hib
    rw [if_neg]
    intro hmem
    rw [inBinB_iff] at hmem
    push_neg at hv
    rcases lt_or_le v lo with hvlo | hvlo
    · have hlo := lo_le_binEdge lo hi bins i h
      have h1 := hmem.1
      linarith
    · have hhi : hi < v := hv hvlo
      rcases hmem with ⟨-, h2⟩
      by_cases hc : i + 1 = bins
      · rw [if_pos hc] at h2
        linarith
      · rw [if_neg hc] at h2
        have hle : binEdge lo hi bins (i + 1) ≤ binEdge lo hi bins bins :=
          binEdge_mono lo hi bins h (by omega)
        rw [binEdge_last lo hi bins hbins] at hle
        linarith

/-- Prepending a value adds its bin indicator to each count. -/
lemma binCount_cons (v : K) (vs : List K) (lo hi : K) (bins i : ℕ) :
    binCount (v :: vs) lo hi bins i =
      (if inBinB lo hi bins i v = true then 1 else 0) +
        binCount vs lo hi bins i := by
  rw [binCount, binCount, List.filter_cons]
  by_cases hc : inBinB lo hi bins i v = true
  · rw [if_pos hc, if_pos hc, List.length_cons]
    omega
  · rw [if_neg hc, if_neg hc]
    omega

/-- The histogram total counts exactly the in-range values. -/
lemma histTotal_eq_filter [FloorRing K] (values : List K) (lo hi : K)
    (bins : ℕ) (h : lo ≤ hi) (hbins : 0 < bins) :
    histTotal values lo hi bins =
      (values.filter (fun v => decide (lo ≤ v) && decide (v ≤ hi))).length := by
  induction values with
  | nil =>
    rw [histTotal, histCounts, list_range_map_sum]
    simp [binCount]
  | cons v vs ih =>
    rw [histTotal, histCounts, list_range_map_sum]
    have hsum : ∑ i in Finset.range bins, binCount (v :: vs) lo hi bins i =
        (∑ i in Finset.range bins,
          if inBinB lo hi bins i v = true then (1 : ℕ) else 0) +
          ∑ i in Finset.range bins, binCount vs lo hi bins i := by
      rw [← Finset.sum_add_distrib]
      exact Finset.sum_congr rfl fun i _ => binCount_cons v vs lo hi bins i
    rw [hsum, sum_bin_indicator lo hi bins v h hbins]
    rw [histTotal, histCounts, list_range_map_sum] at ih
    rw [ih, List.filter_cons]
    by_cases hv : lo ≤ v ∧ v ≤ hi
    · rw [if_pos hv, if_pos (by simp [hv.1, hv.2]), List.length_cons]
      omega
    · rw [if_neg hv, if_neg (by simpa using hv)]
      omega

/-- costFunc as a Finset sum over the 64 bins. -/
lemma costFunc_finset (values : List ℝ) (lo hi : ℝ) :
    costFunc values lo hi = -∑ i in Finset.range 64,
      (((binCount values lo hi 64 i : ℝ) / values.length + histEps) *
        Real.logb 2
          ((binCount values lo hi 64 i : ℝ) / values.length + histEps)) := by
  rw [costFunc, histCounts, List.map_map, List.map_map, list_range_map_sum]
  rfl

/-! ## Claim C2 -/

/-- C2 counterexample: np.histogram does not clip: the single smoothed
value 2 lies above the range [0, 1], so the 64-bin histogram counts
nothing at all, refuting "every pixel of the slice is counted in some
bin" (the one pixel is counted in no bin). -/
theorem histogram_excludes_out_of_range :
    histTotal [(2 : ℝ)] 0 1 64 = 0 ∧ ([(2 : ℝ)]).length = 1 := by
  constructor
  · rw [histTotal_eq_filter [(2 : ℝ)] 0 1 64 (by norm_num) (by norm_num)]
    rw [List.filter_cons]
    rw [if_neg (by simp)]
    rfl
  · rfl

/-- C2 amended: the cost function builds a 64-bin histogram of the
smoothed values that lie within [histMin, histMax] (values outside the
range are excluded, not clipped, so the bin counts total the number of
in-range pixels, which can be less than the pixel count), divides each
count by the total pixel count, adds 1e-12 to every bin, and returns the
negative of the sum of p * log2 p over the bins. -/
theorem costFunc_counts_in_range (values : List ℝ) (lo hi : ℝ)
    (h : lo ≤ hi) :
    histTotal values lo hi 64 =
      (values.filter (fun v => decide (lo ≤ v) && decide (v ≤ hi))).length ∧
    costFunc values lo hi = -∑ i in Finset.range 64,
      (((binCount values lo hi 64 i : ℝ) / values.length + histEps) *
        Real.logb 2
          ((binCount values lo hi 64 i : ℝ) / values.length + histEps)) :=
  ⟨histTotal_eq_filter values lo hi 64 h (by norm_num),
    costFunc_finset values lo hi⟩

/-- C2 witness: a concrete instance of the amended statement on the values
one half and 2 with range [0, 1]. -/
theorem costFunc_counts_in_range_witness :
    (0 : ℝ) ≤ 1 ∧
    (histTotal [(1 / 2 : ℝ), 2] 0 1 64 =
      ([(1 / 2 : ℝ), 2].filter
        (fun v => decide ((0 : ℝ) ≤ v) && decide (v ≤ 1))).length ∧
    costFunc [(1 / 2 : ℝ), 2] 0 1 = -∑ i in Finset.range 64,
      (((binCount [(1 / 2 : ℝ), 2] 0 1 64 i : ℝ) /
          ([(1 / 2 : ℝ), 2]).length + histEps) *
        Real.logb 2
          ((binCount [(1 / 2 : ℝ), 2] 0 1 64 i : ℝ) /
            ([(1 / 2 : ℝ), 2]).length + histEps))) :=
  ⟨by norm_num, costFunc_counts_in_range [(1 / 2 : ℝ), 2] 0 1 (by norm_num)⟩

/-! ## Helper lemmas for the constant-stack scenario (claim C8) -/

/-- The symmetric reflection index stays inside the signal. -/
lemma symIdx_lt (n : ℕ) (hn : 0 < n) (i : ℤ) : symIdx n i < n := by
  have hpos : (0 : ℤ) < 2 * (n : ℤ) := by
    have : (0 : ℤ) < (n : ℤ) := by exact_mod_cast hn
    linarith
  have hnn : (0 : ℤ) ≤ i % (2 * (n : ℤ)) := Int.emod_nonneg i (by linarith)
  have hlt : i % (2 * (n : ℤ)) < 2 * (n : ℤ) := Int.emod_lt_of_pos i hpos
  have hmlt : (i % (2 * (n : ℤ))).toNat < 2 * n := by omega
  simp only [symIdx, if_neg hn.ne']
  split
  · assumption
  · omega

/-- The filter sum splits into its even- and odd-tap sums. -/
lemma listSum_split (f : List K) : listSum f = evenSum f + oddSum f := by
  rw [listSum, evenSum, oddSum]
  rw [← Finset.sum_filter_add_sum_filter_not (Finset.range f.length)
    (fun k => k % 2 = 0)]
  congr 1
  apply Finset.sum_congr
  · ext k
    simp only [Finset.mem_filter, Finset.mem_range]
    omega
  · intro _ _
    rfl

/-- One DWT branch of a signal that is constant on its support is the
constant times the filter sum, at every output position. -/
lemma dwt1_const (f : List K) (n : ℕ) (hn : 0 < n) (x : ℕ → K) (c : K)
    (hx : ∀ t < n, x t = c) (j : ℕ) : dwt1 f n x j = c * listSum f := by
  rw [dwt1, listSum, Finset.mul_sum]
  apply Finset.sum_congr rfl
  intro k _
  rw [hx _ (symIdx_lt n hn _)]
  ring

/-- One inverse-DWT branch of coefficients that vanish on their support
vanishes everywhere. -/
lemma upconv_zero (f : List K) (n : ℕ) (x : ℕ → K) (hx : ∀ t < n, x t = 0)
    (i : ℕ) : upconv f n x i = 0 := by
  rw [upconv]
  apply Finset.sum_eq_zero
  intro j hj
  rw [Finset.mem_range] at hj
  rw [hx j hj]
  split <;> simp

omit [LinearOrderedField K] in
/-- Extensionality for the matrix representation. -/
lemma mtxExt {α : Type} {A B : Mtx α} (hr : A.rows = B.rows)
    (hc : A.cols = B.cols) (he : A.entry = B.entry) : A = B := by
  cases A
  cases B
  cases hr
  cases hc
  cases he
  rfl

/-- pywt.dwt2 of a matrix that is constant on its shape: the four sub-bands
are constant with the corresponding products of filter sums. -/
lemma pywtDwt2_const (lo hi : List K) (M : Mtx K) (c : K)
    (hr : 0 < M.rows) (hc : 0 < M.cols)
    (hM : ∀ i < M.rows, ∀ j < M.cols, M.entry i j = c) :
    pywtDwt2 lo hi M =
      (⟨dwtLen lo.length M.rows, dwtLen lo.length M.cols,
         fun _ _ => c * listSum lo * listSum lo⟩,
       ⟨dwtLen hi.length M.rows, dwtLen lo.length M.cols,
         fun _ _ => c * listSum lo * listSum hi⟩,
       ⟨dwtLen lo.length M.rows, dwtLen hi.length M.cols,
         fun _ _ => c * listSum hi * listSum lo⟩,
       ⟨dwtLen hi.length M.rows, dwtLen hi.length M.cols,
         fun _ _ => c * listSum hi * listSum hi⟩) := by
  have hA1 : ∀ (j t : ℕ), t < M.rows →
      dwt1 lo M.cols (fun u => M.entry t u) j = c * listSum lo :=
    fun j t ht => dwt1_const lo M.cols hc _ c (fun u hu => hM t ht u hu) j
  have hD1 : ∀ (j t : ℕ), t < M.rows →
      dwt1 hi M.cols (fun u => M.entry t u) j = c * listSum hi :=
    fun j t ht => dwt1_const hi M.cols hc _ c (fun u hu => hM t ht u hu) j
  simp only [pywtDwt2, Prod.mk.injEq]
  refine ⟨?_, ?_, ?_, ?_⟩ <;>
    refine mtxExt rfl rfl (funext fun i => funext fun j => ?_)
  · exact dwt1_const lo M.rows hr _ (c * listSum lo)
      (fun t ht => hA1 j t ht) i
  · exact dwt1_const hi M.rows hr _ (c * listSum lo)
      (fun t ht => hA1 j t ht) i
  · exact dwt1_const lo M.rows hr _ (c * listSum hi)
      (fun t ht => hD1 j t ht) i
  · exact dwt1_const hi M.rows hr _ (c * listSum hi)
      (fun t ht => hD1 j t ht) i

/-- The key reconstruction computation: on the kept output positions (here
the first 4, for 11 coefficients and a 20-tap filter) the upsampled
convolution of a constant signal picks up exactly one full parity class of
the filter, so with balanced parity sums it is the constant times the
even-tap sum. -/
lemma upconv_const (f : List K) (hf : f.length = 20)
    (hpar : evenSum f = oddSum f) (a : K) (i : ℕ) (hi : i < 4) :
    upconv f 11 (fun _ => a) i = a * evenSum f := by
  have heven : evenSum f =
      ∑ k in (Finset.range 20).filter (fun k => k % 2 = 0), f.getD k 0 := by
    rw [evenSum, hf]
  have hodd : oddSum f =
      ∑ k in (Finset.range 20).filter (fun k => k % 2 = 1), f.getD k 0 := by
    rw [oddSum, hf]
  interval_cases i
  · rw [heven]
    norm_num [upconv, hf, Finset.sum_range_succ, Finset.sum_filter]
    ring
  · rw [hpar, hodd]
    norm_num [upconv, hf, Finset.sum_range_succ, Finset.sum_filter]
    ring
  · rw [heven]
    norm_num [upconv, hf, Finset.sum_range_succ, Finset.sum_filter]
    ring
  · rw [hpar, hodd]
    norm_num [upconv, hf, Finset.sum_range_succ, Finset.sum_filter]
    ring

/-- pywt.idwt2 of a constant 11-by-11 approximation band and vanishing
detail bands: a 4-by-4 output whose (kept) entries all equal the constant
times the squared even-tap sum of the reconstruction low-pass filter. -/
lemma pywtIdwt2_const (rlo rhi : List K) (hrlo : rlo.length = 20)
    (hpar : evenSum rlo = oddSum rlo) (a : K) :
    (pywtIdwt2 rlo rhi (⟨11, 11, fun _ _ => a⟩ : Mtx K)
        (zeroM 11 11) (zeroM 11 11) (zeroM 11 11)).rows = 4 ∧
    (pywtIdwt2 rlo rhi (⟨11, 11, fun _ _ => a⟩ : Mtx K)
        (zeroM 11 11) (zeroM 11 11) (zeroM 11 11)).cols = 4 ∧
    ∀ p < 4, ∀ x < 4,
      (pywtIdwt2 rlo rhi (⟨11, 11, fun _ _ => a⟩ : Mtx K)
        (zeroM 11 11) (zeroM 11 11) (zeroM 11 11)).entry p x =
        a * evenSum rlo * evenSum rlo := by
  have hz : ∀ (g : List K) (q : ℕ), upconv g 11 (fun _ => (0 : K)) q = 0 :=
    fun g q => upconv_zero g 11 _ (fun _ _ => rfl) q
  refine ⟨?_, ?_, fun p hp x hx => ?_⟩
  · simp only [pywtIdwt2, upLen, hrlo]
  · simp only [pywtIdwt2, upLen, hrlo]
  · show upconv rlo 11
        (fun t => upconv rlo 11 (fun s => a) p +
          upconv rhi 11 (fun s => (0 : K)) p) x +
      upconv rhi 11
        (fun t => upconv rlo 11 (fun s => (0 : K)) p +
          upconv rhi 11 (fun s => (0 : K)) p) x =
      a * evenSum rlo * evenSum rlo
    simp only [hz, add_zero, zero_add]
    simp only [upconv_const rlo hrlo hpar a p hp]
    exact upconv_const rlo hrlo hpar (a * evenSum rlo) x hx

/-- The Fourier damping stage maps the zero band to the zero band whenever
the frequency primitives do. -/
lemma dampMat_zero (env : Env K) (σ : K) (r c : ℕ)
    (hfwd : env.fwd (zeroM r c) = zeroCM r c)
    (hbwd : env.bwd (zeroCM r c) = zeroM r c) :
    dampMat env σ (zeroM r c) = zeroM r c := by
  simp only [dampMat]
  rw [hfwd]
  have hmat : (⟨(zeroCM (K := K) r c).rows, (zeroCM (K := K) r c).cols,
      fun i j =>
        (dampVal env.exp σ (zeroCM (K := K) r c).rows i *
          ((zeroCM (K := K) r c).entry i j).1,
         dampVal env.exp σ (zeroCM (K := K) r c).rows i *
          ((zeroCM (K := K) r c).entry i j).2)⟩ : Mtx (K × K)) =
      zeroCM r c :=
    mtxExt rfl rfl (funext fun i => funext fun j => by simp [zeroCM])
  rw [hmat, hbwd]

/-- The whole per-slice pipeline of removeRings at level 1 on a 3-by-4
constant-1 slice, for the pywt environment of a 20-tap wavelet whose
high-pass decomposition taps sum to zero: the detail bands vanish, the
damping fixes the zero band, and the result is the inverse transform of
the constant approximation band. -/
lemma processSlice_const (lo hi rlo rhi : List K)
    (fwd : Mtx K → Mtx (K × K)) (bwd : Mtx (K × K) → Mtx K) (ex : K → K)
    (σ : K) (M : Mtx K)
    (hlo : lo.length = 20) (hhi : hi.length = 20)
    (hShi : listSum hi = 0)
    (hfwd : fwd (zeroM 11 11) = zeroCM 11 11)
    (hbwd : bwd (zeroCM 11 11) = zeroM 11 11)
    (hr : M.rows = 3) (hc : M.cols = 4)
    (hM : ∀ i < M.rows, ∀ j < M.cols, M.entry i j = 1) :
    processSlice (wletEnv lo hi rlo rhi fwd bwd ex) 1 σ M =
      pywtIdwt2 rlo rhi
        (⟨11, 11, fun _ _ => 1 * listSum lo * listSum lo⟩ : Mtx K)
        (zeroM 11 11) (zeroM 11 11) (zeroM 11 11) := by
  have hdwt : pywtDwt2 lo hi M =
      (⟨11, 11, fun _ _ => 1 * listSum lo * listSum lo⟩,
       (zeroM 11 11, zeroM 11 11, zeroM 11 11)) := by
    rw [pywtDwt2_const lo hi M 1 (by omega) (by omega) hM]
    rw [hlo, hhi, hr, hc]
    simp only [Prod.mk.injEq]
    refine ⟨?_, ?_, ?_, ?_⟩
    · exact mtxExt (by norm_num [dwtLen]) (by norm_num [dwtLen]) rfl
    · exact mtxExt (by norm_num [dwtLen, zeroM]) (by norm_num [dwtLen, zeroM])
        (funext fun i => funext fun j => by rw [hShi]; simp [zeroM])
    · exact mtxExt (by norm_num [dwtLen, zeroM]) (by norm_num [dwtLen, zeroM])
        (funext fun i => funext fun j => by rw [hShi]; simp [zeroM])
    · exact mtxExt (by norm_num [dwtLen, zeroM]) (by norm_num [dwtLen, zeroM])
        (funext fun i => funext fun j => by rw [hShi]; simp [zeroM])
  have hΓdwt : (wletEnv lo hi rlo rhi fwd bwd ex).dwt2 M =
      (⟨11, 11, fun _ _ => 1 * listSum lo * listSum lo⟩,
       (zeroM 11 11, zeroM 11 11, zeroM 11 11)) := hdwt
  have hdamp : dampMat (wletEnv lo hi rlo rhi fwd bwd ex) σ (zeroM 11 11) =
      zeroM 11 11 :=
    dampMat_zero (wletEnv lo hi rlo rhi fwd bwd ex) σ 11 11 hfwd hbwd
  have hcrop : cropM (zeroM (K := K) 11 11).rows (zeroM (K := K) 11 11).cols
      (⟨11, 11, fun _ _ => 1 * listSum lo * listSum lo⟩ : Mtx K) =
      (⟨11, 11, fun _ _ => 1 * listSum lo * listSum lo⟩ : Mtx K) :=
    mtxExt (by simp [cropM, zeroM]) (by simp [cropM, zeroM]) rfl
  simp only [processSlice, decompose, hΓdwt, List.map_cons, List.map_nil,
    reconSteps, hdamp, hcrop]
  rfl

/-- The tap sum of a 20-tap filter with constant taps. -/
lemma listSum_replicate (c : K) : listSum (List.replicate 20 c) = 20 * c := by
  have hlen : (List.replicate 20 c).length = 20 := List.length_replicate _ _
  rw [listSum, hlen]
  have hconst : ∀ k ∈ Finset.range 20, (List.replicate 20 c).getD k 0 = c := by
    intro k hk
    rw [Finset.mem_range] at hk
    rw [List.getD_eq_getElem _ _ (by rw [hlen]; exact hk)]
    exact List.getElem_replicate _ _
  rw [Finset.sum_congr rfl hconst, Finset.sum_const, Finset.card_range]
  norm_num [nsmul_eq_mul]

/-- The even-tap sum of a 20-tap filter with constant taps. -/
lemma evenSum_replicate (c : K) : evenSum (List.replicate 20 c) = 10 * c := by
  have hlen : (List.replicate 20 c).length = 20 := List.length_replicate _ _
  rw [evenSum, hlen]
  have hconst : ∀ k ∈ (Finset.range 20).filter (fun k => k % 2 = 0),
      (List.replicate 20 c).getD k 0 = c := by
    intro k hk
    simp only [Finset.mem_filter, Finset.mem_range] at hk
    rw [List.getD_eq_getElem _ _ (by rw [hlen]; exact hk.1)]
    exact List.getElem_replicate _ _
  rw [Finset.sum_congr rfl hconst, Finset.sum_const,
    show ((Finset.range 20).filter (fun k => k % 2 = 0)).card = 10 from by
      decide]
  norm_num [nsmul_eq_mul]

/-- The odd-tap sum of a 20-tap filter with constant taps. -/
lemma oddSum_replicate (c : K) : oddSum (List.replicate 20 c) = 10 * c := by
  have hlen : (List.replicate 20 c).length = 20 := List.length_replicate _ _
  rw [oddSum, hlen]
  have hconst : ∀ k ∈ (Finset.range 20).filter (fun k => k % 2 = 1),
      (List.replicate 20 c).getD k 0 = c := by
    intro k hk
    simp only [Finset.mem_filter, Finset.mem_range] at hk
    rw [List.getD_eq_getElem _ _ (by rw [hlen]; exact hk.1)]
    exact List.getElem_replicate _ _
  rw [Finset.sum_congr rfl hconst, Finset.sum_const,
    show ((Finset.range 20).filter (fun k => k % 2 = 1)).card = 10 from by
      decide]
  norm_num [nsmul_eq_mul]

/-- The 3-by-4-by-4 synthetic stack of value 1 everywhere of the
specification's constant-stack scenario. -/
def c8Stack : Stack K := ⟨3, 4, 4, fun _ _ _ => 1, 0⟩

/-- Two stacks agree observably: same shape and same entries at every
in-shape position (entries outside the shape are representation junk). -/
def stackEquiv (s t : Stack K) : Prop :=
  s.d0 = t.d0 ∧ s.d1 = t.d1 ∧ s.d2 = t.d2 ∧
    ∀ p < t.d0, ∀ m < t.d1, ∀ x < t.d2, s.val p m x = t.val p m x

/-- The balanced-parity and normalization identities force the round-trip
gain of the constant pipeline to be exactly 1. -/
lemma c8_gain (lo rlo : List K) (hpar : evenSum rlo = oddSum rlo)
    (hnorm : listSum lo * listSum rlo = 2) :
    1 * listSum lo * listSum lo * evenSum rlo * evenSum rlo = 1 := by
  have hsplit := listSum_split rlo
  rw [← hpar] at hsplit
  have h2 : listSum lo * (evenSum rlo + evenSum rlo) = 2 := by
    rw [← hsplit]
    exact hnorm
  have h3 : listSum lo * evenSum rlo = 1 := by linear_combination h2 / 2
  calc 1 * listSum lo * listSum lo * evenSum rlo * evenSum rlo
      = (listSum lo * evenSum rlo) * (listSum lo * evenSum rlo) := by ring
    _ = 1 * 1 := by rw [h3]
    _ = 1 := by ring

/-- One removeRings step of the constant scenario: the write succeeds (the
reconstructed slice crops exactly to the original 3-by-4 shape) and the
stack remains the constant-1 stack on its shape. -/
lemma c8_step (lo hi rlo rhi : List K)
    (fwd : Mtx K → Mtx (K × K)) (bwd : Mtx (K × K) → Mtx K) (ex : K → K)
    (σ : K)
    (hlo : lo.length = 20) (hhi : hi.length = 20) (hrlo : rlo.length = 20)
    (hShi : listSum hi = 0) (hpar : evenSum rlo = oddSum rlo)
    (hnorm : listSum lo * listSum rlo = 2)
    (hfwd : fwd (zeroM 11 11) = zeroCM 11 11)
    (hbwd : bwd (zeroCM 11 11) = zeroM 11 11)
    (st : Stack K) (j : ℕ)
    (h0 : st.d0 = 3) (h1 : st.d1 = 4) (h2 : st.d2 = 4)
    (hval : ∀ p < 3, ∀ m < 4, ∀ x < 4, st.val p m x = 1) (hj : j < 4) :
    ∃ st₂, setSliceChecked st (writeIdx 1 j)
        (cropM st.d0 st.d2 (processSlice (wletEnv lo hi rlo rhi fwd bwd ex)
          1 σ (getSlice st j))) = .ok st₂ ∧
      st₂.d0 = 3 ∧ st₂.d1 = 4 ∧ st₂.d2 = 4 ∧
      ∀ p < 3, ∀ m < 4, ∀ x < 4, st₂.val p m x = 1 := by
  have hps := processSlice_const lo hi rlo rhi fwd bwd ex σ (getSlice st j)
    hlo hhi hShi hfwd hbwd (by simp [getSlice, h0]) (by simp [getSlice, h2])
    (by
      intro i hi x hx
      simp only [getSlice] at hi hx ⊢
      exact hval i (h0 ▸ hi) j hj x (h2 ▸ hx))
  obtain ⟨hrows, hcols, hentry⟩ :=
    pywtIdwt2_const rlo rhi hrlo hpar (1 * listSum lo * listSum lo)
  rw [hps]
  set P := pywtIdwt2 rlo rhi
    (⟨11, 11, fun _ _ => 1 * listSum lo * listSum lo⟩ : Mtx K)
    (zeroM 11 11) (zeroM 11 11) (zeroM 11 11) with hP
  have hcropdims : (cropM st.d0 st.d2 P).rows = st.d0 ∧
      (cropM st.d0 st.d2 P).cols = st.d2 := by
    constructor
    · simp [cropM, hrows, h0]
    · simp [cropM, hcols, h2]
  rw [setSliceChecked, if_pos hcropdims]
  refine ⟨_, rfl, h0, h1, h2, ?_⟩
  · intro p hp m hm x hx
    simp only [setSlice]
    by_cases hm0 : m = writeIdx 1 j
    · rw [if_pos hm0]
      have hcropentry : (cropM st.d0 st.d2 P).entry = P.entry := rfl
      rw [hcropentry, hentry p (by omega) x hx,
        c8_gain lo rlo hpar hnorm]
    · rw [if_neg hm0]
      exact hval p hp m hm x hx

omit [LinearOrderedField K] in
/-- Folding a step that preserves an invariant and always succeeds on
indices below 4 yields a successful run preserving the invariant. -/
lemma foldlM_inv {ε : Type} (f : Stack K → ℕ → Except ε (Stack K))
    (P : Stack K → Prop)
    (hstep : ∀ s j, P s → j < 4 → ∃ s₂, f s j = .ok s₂ ∧ P s₂) :
    ∀ l : List ℕ, (∀ j ∈ l, j < 4) → ∀ s, P s →
      ∃ s₂, List.foldlM f s l = .ok s₂ ∧ P s₂ := by
  intro l
  induction l with
  | nil => intro _ s hs; exact ⟨s, rfl, hs⟩
  | cons a t ih =>
    intro hmem s hs
    obtain ⟨s₁, hok, hs₁⟩ := hstep s a hs (hmem a (by simp))
    rw [List.foldlM_cons, hok, except_bind_ok]
    exact ih (fun j hj => hmem j (by simp [hj])) s₁ hs₁

/-! ## Claim C8 -/

/-- C8: for the 3-by-4-by-4 stack of value 1 everywhere, removeRings at
level 1 with sigma 2 and a 20-tap (db10-like) wavelet leaves the stack
unchanged.  The wavelet enters through its defining identities: the
high-pass decomposition taps sum to 0 (so a constant slice has vanishing
detail bands, which the Fourier damping then fixes), the reconstruction
low-pass taps have balanced even and odd sums, and the product of the two
low-pass tap sums is 2 (perfect-reconstruction normalization); the
frequency primitives fix the zero band.  In the idealised real model the
output equals the input exactly, hence within any floating tolerance. -/
theorem removeRings_constant_stack (lo hi rlo rhi : List K)
    (fwd : Mtx K → Mtx (K × K)) (bwd : Mtx (K × K) → Mtx K) (ex : K → K)
    (hlo : lo.length = 20) (hhi : hi.length = 20) (hrlo : rlo.length = 20)
    (_hrhi : rhi.length = 20)
    (hShi : listSum hi = 0) (hpar : evenSum rlo = oddSum rlo)
    (hnorm : listSum lo * listSum rlo = 2)
    (hfwd : fwd (zeroM 11 11) = zeroCM 11 11)
    (hbwd : bwd (zeroCM 11 11) = zeroM 11 11) :
    ∃ st', removeRings (wletEnv lo hi rlo rhi fwd bwd ex) 1 2 c8Stack =
        .ok st' ∧ stackEquiv st' c8Stack := by
  have hfold := foldlM_inv
    (fun s j => setSliceChecked s (writeIdx 1 j)
      (cropM s.d0 s.d2 (processSlice (wletEnv lo hi rlo rhi fwd bwd ex)
        1 2 (getSlice s j))))
    (fun s => s.d0 = 3 ∧ s.d1 = 4 ∧ s.d2 = 4 ∧
      ∀ p < 3, ∀ m < 4, ∀ x < 4, s.val p m x = 1)
    (fun s j hs hj => by
      obtain ⟨g0, g1, g2, gv⟩ := hs
      exact c8_step lo hi rlo rhi fwd bwd ex 2 hlo hhi hrlo hShi hpar hnorm
        hfwd hbwd s j g0 g1 g2 gv hj)
    (List.range (c8Stack (K := K)).d1)
    (fun j hj => by
      simp only [c8Stack, List.mem_range] at hj
      exact hj)
    c8Stack
    ⟨rfl, rfl, rfl, fun p _ m _ x _ => rfl⟩
  obtain ⟨st₂, hok, g0, g1, g2, gv⟩ := hfold
  exact ⟨st₂, hok, g0, g1, g2, fun p hp m hm x hx => gv p hp m hm x hx⟩

/-- C8 witness: concrete rational filters satisfying the db10 identities
used by the theorem (20 constant taps each; low-pass sums 2 and 1, their
product 2; high-pass sum 0; balanced parity sums), with the frequency
primitives embedding into and projecting from the complex plane. -/
theorem removeRings_constant_stack_witness :
    listSum (List.replicate 20 ((1 : ℚ) / 10)) *
        listSum (List.replicate 20 ((1 : ℚ) / 20)) = 2 ∧
    listSum (List.replicate 20 (0 : ℚ)) = 0 ∧
    evenSum (List.replicate 20 ((1 : ℚ) / 20)) =
      oddSum (List.replicate 20 ((1 : ℚ) / 20)) ∧
    ∃ st', removeRings (wletEnv (List.replicate 20 ((1 : ℚ) / 10))
        (List.replicate 20 (0 : ℚ)) (List.replicate 20 ((1 : ℚ) / 20))
        (List.replicate 20 (0 : ℚ))
        (fun m => ⟨m.rows, m.cols, fun i j => (m.entry i j, 0)⟩)
        (fun c => ⟨c.rows, c.cols, fun i j => (c.entry i j).1⟩)
        (fun _ => 0)) 1 2 c8Stack = .ok st' ∧ stackEquiv st' c8Stack := by
  refine ⟨?_, ?_, ?_, ?_⟩
  · rw [listSum_replicate, listSum_replicate]
    norm_num
  · rw [listSum_replicate]
    norm_num
  · rw [evenSum_replicate, oddSum_replicate]
  · exact removeRings_constant_stack _ _ _ _ _ _ _
      (List.length_replicate _ _) (List.length_replicate _ _)
      (List.length_replicate _ _) (List.length_replicate _ _)
      (by rw [listSum_replicate]; norm_num)
      (by rw [evenSum_replicate, oddSum_replicate])
      (by rw [listSum_replicate, listSum_replicate]; norm_num)
      rfl rfl

end TomoData
